import Mathlib

/-
Verification of the parse-and-annotate pipeline of the ichi.moe Obsidian plugin.

Strings are modelled as lists of characters (List Char).  The ruby annotator
applySentenceRubyTags is embedded from src/unnamed/part_002 (lines 454-506); the
HTML-response parser parseIchiMoeResponse, the word formatter formatWordWithRuby and
the markdown builder of insertAnalysis are embedded from src/main.ts.  The DOM tree
produced by cheerio.load is modelled as an abstract tree with class/attribute data, and
the selector queries used by the parser are implemented over it with CSS descendant
semantics.
-/

/-- Characters matched by the JavaScript whitespace class, as used by
String.prototype.trim and by the regex class \s. -/
def isSpaceChar (c : Char) : Bool :=
  c == ' ' || c == '\t' || c == '\n' || c == '\r' ||
  c.val == 11 || c.val == 12 || c.val == 0xa0 || c.val == 0x1680 ||
  (0x2000 ≤ c.val && c.val ≤ 0x200a) ||
  c.val == 0x2028 || c.val == 0x2029 || c.val == 0x202f || c.val == 0x205f ||
  c.val == 0x3000 || c.val == 0xfeff

/-- ASCII digits, as matched by the regex class \d. -/
def isDigitChar (c : Char) : Bool :=
  '0' ≤ c && c ≤ '9'

/-- JavaScript String.prototype.trim on a string modelled as a list of characters. -/
def trimStr (s : List Char) : List Char :=
  ((s.dropWhile isSpaceChar).reverse.dropWhile isSpaceChar).reverse

/-- One furigana segment from the JmdictFurigana dataset:
interface Furigana { ruby: string; rt?: string } in the source. -/
structure Furigana where
  ruby : List Char
  rt : Option (List Char)
deriving DecidableEq

/-- JavaScript truthiness of the optional rt field: an absent rt and an empty-string rt
are both falsy. -/
def hasRt (f : Furigana) : Bool :=
  match f.rt with
  | some r => !r.isEmpty
  | none => false

/-- The per-entry trimming step of applySentenceRubyTags (src/unnamed/part_002 lines
459-461): arr.slice(arr.findIndex(obj => obj.rt), arr.findLastIndex(obj => !!obj.rt) + 1).
When no segment has a truthy rt, findIndex gives -1 and slice(-1, 0) gives the empty
array; otherwise the slice runs from the first rt-bearing segment to the last one. -/
def stripEntry (arr : List Furigana) : List Furigana :=
  match arr.findIdx? hasRt with
  | none => []
  | some i =>
    let j := arr.length - 1 - arr.reverse.findIdx hasRt
    (arr.drop i).take (j + 1 - i)

/-- subArray.map(obj => obj.ruby).join('') (src/unnamed/part_002 line 462). -/
def rubyFlat (fs : List Furigana) : List Char :=
  (fs.map Furigana.ruby).flatten

/-- The record built for each entry: { furigana: subArray, base } (part_002 line 463). -/
structure Stripped where
  furigana : List Furigana
  base : List Char
deriving DecidableEq

/-- Builds the stripped record for one entry of allFurigana. -/
def mkStripped (arr : List Furigana) : Stripped :=
  { furigana := stripEntry arr, base := rubyFlat (stripEntry arr) }

/-- .sort((a, b) => b.base.length - a.base.length) (part_002 line 465): a stable sort,
descending by base length.  JavaScript's Array.prototype.sort is stable, and a stable
sort for a total preorder has a unique result, so the stable insertion sort used here
computes the same list as the engine's sort. -/
def sortEntries (l : List Stripped) : List Stripped :=
  List.insertionSort (fun a b => b.base.length ≤ a.base.length) l

/-- A piece of the in-progress sentence: the source keeps the sentence as a value of
type (string | Furigana[])[]. -/
inductive Piece where
  | lit (s : List Char)
  | resolved (f : List Furigana)
deriving DecidableEq

/-- First-occurrence split of s around base: substring.indexOf(base) with
left = slice(0, idx) and right = slice(idx + base.length); none when base does not
occur (indexOf = -1).  s.includes(base) is (splitFirst base s).isSome; an empty base
occurs in every string, at index 0. -/
def splitFirst (base : List Char) : List Char → Option (List Char × List Char)
  | [] => if base.isEmpty then some ([], []) else none
  | c :: rest =>
    if (c :: rest).take base.length = base then some ([], (c :: rest).drop base.length)
    else (splitFirst base rest).map (fun p => (c :: p.1, p.2))

/-- Merge the left remainder into farLeft: when the last piece is a string it is
extended in place (farLeft[farLeft.length - 1] += left), otherwise a new (possibly
empty) literal is pushed (part_002 lines 485-489). -/
def mergeLast : List Piece → List Char → List Piece
  | [], l => [Piece.lit l]
  | [Piece.lit s], l => [Piece.lit (s ++ l)]
  | [Piece.resolved f], l => [Piece.resolved f, Piece.lit l]
  | p :: q :: rest, l => p :: mergeLast (q :: rest) l

/-- Merge the right remainder into farRight: when the first piece is a string it is
prefixed (farRight[0] = right + farRight[0]), otherwise a new (possibly empty) literal
is unshifted (part_002 lines 491-495). -/
def mergeHead (r : List Char) (ps : List Piece) : List Piece :=
  match ps with
  | Piece.lit s :: rest => Piece.lit (r ++ s) :: rest
  | _ => Piece.lit r :: ps

/-- One pass of result.findIndex(x => typeof x === 'string' && x.includes(base))
followed by the splice at the found index (part_002 lines 473-497).  acc is the
already-scanned prefix (farLeft); none means base occurs in no literal piece, which is
the exit condition of the while loop. -/
def splitOnceAux (base : List Char) (furi : List Furigana) (acc : List Piece) :
    List Piece → Option (List Piece)
  | [] => none
  | Piece.resolved f :: rest => splitOnceAux base furi (acc ++ [Piece.resolved f]) rest
  | Piece.lit s :: rest =>
    match splitFirst base s with
    | none => splitOnceAux base furi (acc ++ [Piece.lit s]) rest
    | some (l, r) => some (mergeLast acc l ++ Piece.resolved furi :: mergeHead r rest)

/-- The while loop of part_002 lines 472-498, with explicit fuel; none models the loop
not finishing within fuel iterations (with an empty base the source loop never exits). -/
def insertLoop (fuel : Nat) (base : List Char) (furi : List Furigana)
    (pieces : List Piece) : Option (List Piece) :=
  match fuel with
  | 0 => none
  | n + 1 =>
    match splitOnceAux base furi [] pieces with
    | none => some pieces
    | some ps => insertLoop n base furi ps

/-- The for-loop over the sorted stripped entries (part_002 line 471). -/
def annotateAll (fuel : Nat) (entries : List Stripped) (pieces : List Piece) :
    Option (List Piece) :=
  match entries with
  | [] => some pieces
  | e :: rest =>
    match insertLoop fuel e.base e.furigana pieces with
    | none => none
    | some ps => annotateAll fuel rest ps

/-- The piece list applySentenceRubyTags builds before final rendering, starting from
the single literal piece [originalSentence] (part_002 line 467). -/
def annotatePieces (fuel : Nat) (sentence : List Char)
    (allFurigana : List (List Furigana)) : Option (List Piece) :=
  annotateAll fuel (sortEntries (allFurigana.map mkStripped)) [Piece.lit sentence]

/-- Ruby markup for one segment: <ruby>RUBY<rt>RT</rt></ruby> when rt is truthy, the
plain ruby text otherwise (part_002 line 503; same markup in formatWordWithRuby,
src/main.ts lines 96-105). -/
def renderFurigana (f : Furigana) : List Char :=
  if hasRt f then
    "<ruby>".toList ++ f.ruby ++ "<rt>".toList ++ f.rt.getD [] ++ "</rt></ruby>".toList
  else f.ruby

/-- Final rendering of one piece (part_002 lines 501-505). -/
def renderPiece (p : Piece) : List Char :=
  match p with
  | Piece.lit s => s
  | Piece.resolved f => (f.map renderFurigana).flatten

/-- Final rendering of the piece list: the concatenation of all pieces in order. -/
def renderPieces (ps : List Piece) : List Char :=
  (ps.map renderPiece).flatten

/-- applySentenceRubyTags (src/unnamed/part_002 lines 454-506), with fuel bounding the
scan-and-split while loop; some out is the string the source function returns. -/
def applySentenceRubyTags (fuel : Nat) (originalSentence : List Char)
    (allFurigana : List (List Furigana)) : Option (List Char) :=
  (annotatePieces fuel originalSentence allFurigana).map renderPieces

/-- What remains of a rendered piece after deleting every <rt> reading and the
surrounding ruby markup: a literal piece keeps its text, a resolved piece keeps only
the segment base texts. -/
def stripPiece (p : Piece) : List Char :=
  match p with
  | Piece.lit s => s
  | Piece.resolved f => rubyFlat f

/-- The annotation-free residue of a whole piece list. -/
def stripPieces (ps : List Piece) : List Char :=
  (ps.map stripPiece).flatten

/-- Length contribution of one piece to the unresolved literal text. -/
def litPieceLen (p : Piece) : Nat :=
  match p with
  | Piece.lit s => s.length
  | Piece.resolved _ => 0

/-- Total length of the unresolved literal text in a piece list. -/
def litLen (ps : List Piece) : Nat :=
  (ps.map litPieceLen).sum

/-- The sequence of resolved segment lists of a piece list, in order. -/
def resolvedPieces (ps : List Piece) : List (List Furigana) :=
  ps.filterMap (fun p => match p with | Piece.lit _ => none | Piece.resolved f => some f)

/-- An HTML DOM node as produced by cheerio.load: an element with tag name, class
list, attribute list and children, or a text node.  cheerio.load accepts every input
string without raising (its htmlparser2 backend is error-tolerant), so each html
string, however malformed or empty, maps to some such tree; the parser consumes only
this tree. -/
inductive Dom where
  | elem (tag : List Char) (classes : List (List Char))
      (attrs : List (List Char × List Char)) (children : List Dom)
  | text (s : List Char)

/-- Children of a node; text nodes have none. -/
def domChildren : Dom → List Dom
  | Dom.elem _ _ _ cs => cs
  | Dom.text _ => []

mutual
/-- jQuery .text() of one node: the concatenated text of all descendant text nodes,
in document order. -/
def textContent : Dom → List Char
  | Dom.text s => s
  | Dom.elem _ _ _ cs => textContentList cs
/-- Text content of a forest of nodes. -/
def textContentList : List Dom → List Char
  | [] => []
  | d :: ds => textContent d ++ textContentList ds
end

/-- A simple selector: by class (.foo) or by tag name (em, dt, dd, li). -/
inductive Sel where
  | cls (name : List Char)
  | tag (name : List Char)

/-- Whether a node matches a simple selector; text nodes match nothing. -/
def matchesSel (s : Sel) (d : Dom) : Bool :=
  match s, d with
  | Sel.cls c, Dom.elem _ classes _ _ => classes.contains c
  | Sel.tag t, Dom.elem tg _ _ _ => tg == t
  | _, Dom.text _ => false

mutual
/-- All nodes of a subtree in document (pre-order) order, each with its ancestor chain
(outermost first) and its list of following siblings. -/
def enumNode (anc : List Dom) (sibs : List Dom) :
    Dom → List (List Dom × List Dom × Dom)
  | Dom.elem t c a cs =>
    (anc, sibs, Dom.elem t c a cs) :: enumChildren (anc ++ [Dom.elem t c a cs]) cs
  | Dom.text s => [(anc, sibs, Dom.text s)]
/-- Enumerate a forest of siblings; each node's following siblings are the nodes after
it in the list. -/
def enumChildren (anc : List Dom) : List Dom → List (List Dom × List Dom × Dom)
  | [] => []
  | c :: rest => enumNode anc rest c ++ enumChildren anc rest
end

/-- CSS descendant-combinator matching of a selector chain (outermost first) against
an ancestor chain (outermost first): each selector must match some ancestor, in
nesting order. -/
def ancChainMatches : List Sel → List Dom → Bool
  | [], _ => true
  | _ :: _, [] => false
  | s :: rest, a :: more =>
    (matchesSel s a && ancChainMatches rest more) || ancChainMatches (s :: rest) more

/-- A node matches a compound selector when it matches the final simple selector and
its ancestor chain matches the earlier ones in order. -/
def selMatches (sels : List Sel) (anc : List Dom) (n : Dom) : Bool :=
  match sels.getLast? with
  | none => false
  | some s => matchesSel s n && ancChainMatches sels.dropLast anc

/-- jQuery find (and the root-level query of cheerio): the strict descendants of root
matching the compound selector, in document order, each paired with its
following-sibling list so that .next() can be evaluated. -/
def findWithSibs (sels : List Sel) (root : Dom) : List (Dom × List Dom) :=
  (enumChildren [root] (domChildren root)).filterMap
    (fun t => if selMatches sels t.1 t.2.2 then some (t.2.2, t.2.1) else none)

/-- The matching descendants only. -/
def findIn (sels : List Sel) (root : Dom) : List Dom :=
  (findWithSibs sels root).map Prod.fst

/-- Element has the given class (for the .not('.hidden') filter). -/
def hasClass (c : List Char) (d : Dom) : Bool :=
  match d with
  | Dom.elem _ classes _ _ => classes.contains c
  | Dom.text _ => false

/-- jQuery .attr on one element: the attribute's value when present. -/
def attrOf (d : Dom) (name : List Char) : Option (List Char) :=
  match d with
  | Dom.elem _ _ attrs _ => (attrs.find? (fun p => p.1 == name)).map Prod.snd
  | Dom.text _ => none

/-- jQuery .text() over a selection: the concatenation over all selected nodes. -/
def textAll (ds : List Dom) : List Char :=
  (ds.map textContent).flatten

/-- JavaScript a || b on optional strings: a when truthy (present and non-empty),
otherwise b. -/
def jsOr (a b : Option (List Char)) : Option (List Char) :=
  match a with
  | some s => if s.isEmpty then b else some s
  | none => b

/-- The first following sibling that is an element (jQuery sibling traversal works on
elements; text nodes are skipped). -/
def nextElem : List Dom → Option Dom
  | [] => none
  | Dom.text _ :: rest => nextElem rest
  | Dom.elem t c a cs :: _ => some (Dom.elem t c a cs)

/-- jQuery .next('dd'): the immediately following sibling element, kept only when it
is a dd. -/
def nextDd (sibs : List Dom) : Option Dom :=
  match nextElem sibs with
  | some d => if matchesSel (Sel.tag "dd".toList) d then some d else none
  | none => none

/-- Strip a leading ordinal prefix: the replace(/^\d+\.\s*/, '') of src/main.ts — one
or more digits, a dot, then any whitespace, removed only when anchored at the start. -/
def stripOrdinal (s : List Char) : List Char :=
  match s.takeWhile isDigitChar with
  | [] => s
  | _ :: _ =>
    match s.dropWhile isDigitChar with
    | '.' :: r => r.dropWhile isSpaceChar
    | _ => s

/-- The label regex of src/main.ts, /^([^【]+)(?:【([^】]+)】)?/ : group 1 is the
non-empty run before the first 【 (no match when the string is empty or starts with
【); the optional group yields the non-empty run between 【 and the following 】,
provided that closing 】 exists. -/
def matchWordReading (s : List Char) : Option (List Char × Option (List Char)) :=
  let w := s.takeWhile (fun c => c != '【')
  if w.isEmpty then none
  else
    some (w,
      match s.dropWhile (fun c => c != '【') with
      | '【' :: r2 =>
        if (r2.takeWhile (fun c => c != '】')).isEmpty then none
        else
          match r2.dropWhile (fun c => c != '】') with
          | '】' :: _ => some (r2.takeWhile (fun c => c != '】'))
          | _ => none
      | _ => none)

/-- Parsing of a single-reading label (src/main.ts lines 244-256): strip the ordinal
prefix, match the label regex; on a match the word is group 1 trimmed and the reading
is group 2 trimmed when present; with no match the cleaned text itself becomes the
word, reading unset. -/
def parseSingleLabel (dtText : List Char) : List Char × Option (List Char) :=
  match matchWordReading (stripOrdinal dtText) with
  | some (w, r) => (trimStr w, r.map trimStr)
  | none => (stripOrdinal dtText, none)

/-- One alternative reading with its definitions: interface Alternative of
src/main.ts (named AltEntry here; Mathlib already uses the name Alternative). -/
structure AltEntry where
  reading : List Char
  definitions : List (List Char)
deriving DecidableEq

/-- interface WordInfo of src/main.ts: the parser populates either the alternatives
shape or the reading/definitions shape. -/
structure WordInfo where
  word : List Char
  alternatives : Option (List AltEntry)
  reading : Option (List Char)
  definitions : Option (List (List Char))
deriving DecidableEq

/-- interface SentenceInfo of src/main.ts. -/
structure SentenceInfo where
  original : List Char
  romanization : Option (List Char)
  words : List WordInfo
deriving DecidableEq

/-- One li item's definition string (src/main.ts lines 264-288): "(pos) gloss", with a
truthy title/data-tooltip note of a .sense-info-note appended as " (☝️ note)"; items
whose gloss-desc text is empty yield nothing. -/
def defOfLi (li : Dom) : Option (List Char) :=
  let posDesc := trimStr (textAll (findIn [Sel.cls "pos-desc".toList] li))
  let glossDesc := trimStr (textAll (findIn [Sel.cls "gloss-desc".toList] li))
  if glossDesc.isEmpty then none
  else
    let d1 := (if posDesc.isEmpty then [] else "(".toList ++ posDesc ++ ") ".toList) ++
      glossDesc
    match findIn [Sel.cls "sense-info-note".toList] li with
    | [] => some d1
    | n :: _ =>
      match jsOr (attrOf n "title".toList) (attrOf n "data-tooltip".toList) with
      | some noteText =>
        if noteText.isEmpty then some d1
        else some (d1 ++ " (☝️ ".toList ++ noteText ++ ")".toList)
      | none => some d1

/-- One alternative from a dt element and its following dd (src/main.ts lines
176-219): the ordinal-stripped dt text is kept as the reading label as-is; definitions
come from the li items of the next dd; alternatives with no definitions are dropped. -/
def altOfDt (dtEl : Dom) (sibs : List Dom) : Option AltEntry :=
  let reading := stripOrdinal (trimStr (textContent dtEl))
  let defs :=
    match nextDd sibs with
    | none => []
    | some ddEl => (findIn [Sel.tag "li".toList] ddEl).filterMap defOfLi
  if defs.isEmpty then none else some { reading := reading, definitions := defs }

/-- The push step of the multi-alternative branch (src/main.ts lines 221-234): the
word/alternatives record is pushed only when at least one alternative survived. -/
def mkMultiWordInfo (word : List Char) (alts : List AltEntry) : Option WordInfo :=
  if alts.isEmpty then none
  else some { word := word, alternatives := some alts, reading := none,
              definitions := none }

/-- The push step of the single-reading branch (src/main.ts lines 258-296): the block
is skipped when the word is empty (if (!word) return) or when no definition item was
collected; otherwise the word/reading/definitions record is pushed. -/
def mkSingleWordInfo (word : List Char) (reading : Option (List Char))
    (defs : List (List Char)) : Option WordInfo :=
  if word.isEmpty then none
  else if defs.isEmpty then none
  else some { word := word, alternatives := none, reading := reading,
              definitions := some defs }

/-- Processing of one .gloss element (src/main.ts lines 162-297): the multi-alternative
branch when more than one .gloss-content .alternatives dt is present, otherwise the
single-reading branch; none when the source skips the block. -/
def processGloss (g : Dom) : Option WordInfo :=
  let romanizedText :=
    trimStr (textAll (findIn [Sel.cls "gloss-rtext".toList, Sel.tag "em".toList] g))
  let dts := findWithSibs [Sel.cls "gloss-content".toList, Sel.cls "alternatives".toList,
    Sel.tag "dt".toList] g
  if 1 < dts.length then
    let baseWord := if romanizedText.isEmpty then "unknown".toList else romanizedText
    let alternatives := dts.filterMap (fun p => altOfDt p.1 p.2)
    let firstDtText :=
      match dts with
      | [] => []
      | p :: _ => stripOrdinal (trimStr (textContent p.1))
    let wm := trimStr (firstDtText.takeWhile (fun c => c != '【'))
    mkMultiWordInfo (if wm.isEmpty then baseWord else wm) alternatives
  else
    let dtText :=
      match findIn [Sel.cls "gloss-content".toList, Sel.tag "dt".toList] g with
      | [] => []
      | d :: _ => trimStr (textContent d)
    let wr :=
      if dtText.isEmpty then
        (if romanizedText.isEmpty then (([] : List Char), (none : Option (List Char)))
          else (romanizedText, none))
      else parseSingleLabel dtText
    mkSingleWordInfo wr.1 wr.2 ((findIn [Sel.tag "li".toList] g).filterMap defOfLi)

/-- parseIchiMoeResponse (src/main.ts lines 142-306) over the loaded DOM tree:
romanization joins the non-empty trimmed .ds-text .ds-word texts with single spaces;
words come from the .gloss blocks of the first non-hidden .gloss-row.  The function is
total over every tree, mirroring that the source never raises on malformed input. -/
def parseIchiMoeResponse (root : Dom) (originalText : List Char) : SentenceInfo :=
  let romanizationParts :=
    (findIn [Sel.cls "ds-text".toList, Sel.cls "ds-word".toList] root).filterMap
      (fun el => if (trimStr (textContent el)).isEmpty then none
        else some (trimStr (textContent el)))
  let romanization :=
    if romanizationParts.isEmpty then none
    else some (List.intercalate " ".toList romanizationParts)
  let words :=
    match (findIn [Sel.cls "gloss-row".toList] root).filter
        (fun d => !hasClass "hidden".toList d) with
    | [] => []
    | row :: _ => (findIn [Sel.cls "gloss".toList] row).filterMap processGloss
  { original := originalText, romanization := romanization, words := words }

/-- formatWordWithRuby (src/main.ts lines 78-108): a falsy reading (unset or empty)
returns the word alone with no lookup; a missing dictionary entry under the
word-reading key falls back to bracket form; otherwise ruby markup is built from the
entry's segments.  The dictionary index is the immutable lookup function of the map
built at load time. -/
def formatWordWithRuby (word : List Char) (reading : Option (List Char))
    (furiganaMap : List Char → Option (List Furigana)) : List Char :=
  match reading with
  | none => word
  | some r =>
    if r.isEmpty then word
    else
      match furiganaMap (word ++ "-".toList ++ r) with
      | none => word ++ " 【".toList ++ r ++ "】".toList
      | some furiganaData => (furiganaData.map renderFurigana).flatten

/-- One alternative line with its nested definition lines (src/main.ts lines
340-354): the alternative's reading label is re-matched against the label regex to
split word and reading for the furigana lookup. -/
def renderAlt (furiganaMap : List Char → Option (List Furigana)) (alt : AltEntry) :
    List Char :=
  let mr := matchWordReading alt.reading
  let altWord :=
    match mr with
    | some (w, _) => if (trimStr w).isEmpty then alt.reading else trimStr w
    | none => alt.reading
  let altReading :=
    match mr with
    | some (_, r) => r.map trimStr
    | none => none
  ">   - ".toList ++ formatWordWithRuby altWord altReading furiganaMap ++ "\n".toList ++
    (alt.definitions.map (fun d => ">     - ".toList ++ d ++ "\n".toList)).flatten

/-- The two-level block for a single-reading word (src/main.ts lines 356-366). -/
def renderWordBlockSingle (furiganaMap : List Char → Option (List Furigana))
    (wi : WordInfo) : List Char :=
  "> - ".toList ++ formatWordWithRuby wi.word wi.reading furiganaMap ++ "\n".toList ++
    ((wi.definitions.getD []).map (fun d => ">   - ".toList ++ d ++ "\n".toList)).flatten

/-- One word block of the callout body (src/main.ts lines 335-367): the three-level
structure when alternatives is present and non-empty, the two-level structure
otherwise. -/
def renderWordBlock (furiganaMap : List Char → Option (List Furigana))
    (wi : WordInfo) : List Char :=
  match wi.alternatives with
  | some alts =>
    if alts.isEmpty then renderWordBlockSingle furiganaMap wi
    else "> - ".toList ++ wi.word ++ "\n".toList ++
      (alts.map (renderAlt furiganaMap)).flatten
  | none => renderWordBlockSingle furiganaMap wi

/-- The markdown string built by insertAnalysis (src/main.ts lines 328-373): a leading
newline, the collapsible callout header carrying the original sentence, one block per
word — or the placeholder explanation line when no words were found — and a trailing
blank line. -/
def buildAnalysisText (si : SentenceInfo)
    (furiganaMap : List Char → Option (List Furigana)) : List Char :=
  "\n".toList ++ "> [!IchiMoe]- ".toList ++ si.original ++ "\n".toList ++
    (if si.words.isEmpty then
      ("> *No word definitions found. The text might be too complex " ++
        "or ichi.moe might be having issues.*\n").toList
    else (si.words.map (renderWordBlock furiganaMap)).flatten) ++
    "\n".toList

/-- The always-empty dictionary index, used by concrete instantiations below. -/
def emptyFuriMap : List Char → Option (List Furigana) :=
  fun _ => none

/-- A concrete document with one gloss block, for the claim C9 witness. -/
def witRoot : Dom :=
  Dom.elem "html".toList [] []
    [Dom.elem "div".toList ["gloss-row".toList] []
      [Dom.elem "div".toList ["gloss".toList] []
        [Dom.elem "div".toList ["gloss-content".toList] []
          [Dom.elem "dt".toList [] [] [Dom.text "a".toList]],
        Dom.elem "li".toList [] []
          [Dom.elem "span".toList ["gloss-desc".toList] [] [Dom.text "b".toList]]]]]

/-- The word the parser extracts from witRoot. -/
def witWord : WordInfo :=
  { word := "a".toList, alternatives := none, reading := none,
    definitions := some ["b".toList] }

/-- splitFirst really splits: the input is left ++ base ++ right. -/
theorem splitFirst_sound (base : List Char) :
    ∀ s l r : List Char, splitFirst base s = some (l, r) → s = l ++ base ++ r := by
  intro s
  induction s with
  | nil =>
    intro l r h
    rw [splitFirst] at h
    by_cases hb : base.isEmpty
    · rw [if_pos hb] at h
      injection h with h
      cases h
      simp [List.isEmpty_iff.mp hb]
    · rw [if_neg hb] at h
      simp at h
  | cons c rest ih =>
    intro l r h
    rw [splitFirst] at h
    by_cases ht : (c :: rest).take base.length = base
    · rw [if_pos ht] at h
      injection h with h
      cases h
      simp only [List.nil_append]
      conv_lhs => rw [← List.take_append_drop base.length (c :: rest)]
      rw [ht]
    · rw [if_neg ht] at h
      rcases Option.map_eq_some'.mp h with ⟨p2, hs, hmk⟩
      obtain ⟨l2, r2⟩ := p2
      simp only at hmk
      cases hmk
      simp [ih _ _ hs]

/-- Any string occurs in itself, splitting into empty remainders. -/
theorem splitFirst_self (s : List Char) : splitFirst s s = some ([], []) := by
  cases s with
  | nil => simp [splitFirst]
  | cons c rest => simp [splitFirst]

/-- A non-empty pattern does not occur in the empty string. -/
theorem splitFirst_nil_of_ne (base : List Char) (h : base ≠ []) :
    splitFirst base [] = none := by
  rw [splitFirst, if_neg]
  simpa using h

@[simp]
theorem stripPieces_nil : stripPieces [] = [] := rfl

@[simp]
theorem stripPieces_cons (p : Piece) (ps : List Piece) :
    stripPieces (p :: ps) = stripPiece p ++ stripPieces ps := by
  simp [stripPieces]

@[simp]
theorem stripPieces_append (a b : List Piece) :
    stripPieces (a ++ b) = stripPieces a ++ stripPieces b := by
  simp [stripPieces]

@[simp]
theorem litLen_nil : litLen [] = 0 := rfl

@[simp]
theorem litLen_cons (p : Piece) (ps : List Piece) :
    litLen (p :: ps) = litPieceLen p + litLen ps := by
  simp [litLen]

@[simp]
theorem litLen_append (a b : List Piece) : litLen (a ++ b) = litLen a + litLen b := by
  simp [litLen]

@[simp]
theorem resolvedPieces_nil : resolvedPieces [] = [] := rfl

@[simp]
theorem resolvedPieces_cons_lit (s : List Char) (ps : List Piece) :
    resolvedPieces (Piece.lit s :: ps) = resolvedPieces ps := by
  simp [resolvedPieces]

@[simp]
theorem resolvedPieces_cons_resolved (f : List Furigana) (ps : List Piece) :
    resolvedPieces (Piece.resolved f :: ps) = f :: resolvedPieces ps := by
  simp [resolvedPieces]

@[simp]
theorem resolvedPieces_append (a b : List Piece) :
    resolvedPieces (a ++ b) = resolvedPieces a ++ resolvedPieces b := by
  simp [resolvedPieces]

/-- Merging a left remainder preserves the annotation-free residue. -/
theorem mergeLast_strip (fl : List Piece) (l : List Char) :
    stripPieces (mergeLast fl l) = stripPieces fl ++ l := by
  induction fl, l using mergeLast.induct with
  | case1 l => simp [mergeLast, stripPiece]
  | case2 s l => simp [mergeLast, stripPiece]
  | case3 f l => simp [mergeLast, stripPiece]
  | case4 p q rest l ih => simp [mergeLast, ih]

/-- Merging a left remainder adds exactly its length to the literal total. -/
theorem mergeLast_litLen (fl : List Piece) (l : List Char) :
    litLen (mergeLast fl l) = litLen fl + l.length := by
  induction fl, l using mergeLast.induct with
  | case1 l => simp [mergeLast, litPieceLen]
  | case2 s l => simp [mergeLast, litPieceLen]
  | case3 f l => simp [mergeLast, litPieceLen]
  | case4 p q rest l ih =>
    simp [mergeLast, ih]
    omega

/-- Merging a left remainder leaves the resolved pieces untouched. -/
theorem mergeLast_resolved (fl : List Piece) (l : List Char) :
    resolvedPieces (mergeLast fl l) = resolvedPieces fl := by
  induction fl, l using mergeLast.induct with
  | case1 l => simp [mergeLast]
  | case2 s l => simp [mergeLast]
  | case3 f l => simp [mergeLast]
  | case4 p q rest l ih => cases p <;> simp [mergeLast, ih]

/-- Merging a right remainder preserves the annotation-free residue. -/
theorem mergeHead_strip (r : List Char) (ps : List Piece) :
    stripPieces (mergeHead r ps) = r ++ stripPieces ps := by
  cases ps with
  | nil => simp [mergeHead, stripPiece]
  | cons p rest => cases p <;> simp [mergeHead, stripPiece]

/-- Merging a right remainder adds exactly its length to the literal total. -/
theorem mergeHead_litLen (r : List Char) (ps : List Piece) :
    litLen (mergeHead r ps) = r.length + litLen ps := by
  cases ps with
  | nil => simp [mergeHead, litPieceLen]
  | cons p rest =>
    cases p with
    | lit s =>
      simp [mergeHead, litPieceLen]
      omega
    | resolved f => simp [mergeHead, litPieceLen]

/-- Merging a right remainder leaves the resolved pieces untouched. -/
theorem mergeHead_resolved (r : List Char) (ps : List Piece) :
    resolvedPieces (mergeHead r ps) = resolvedPieces ps := by
  cases ps with
  | nil => simp [mergeHead]
  | cons p rest => cases p <;> simp [mergeHead]

/-- One splice pass preserves the annotation-free residue, provided the inserted
segment list flattens back to the matched base. -/
theorem splitOnceAux_strip (base : List Char) (furi : List Furigana)
    (hbase : rubyFlat furi = base) :
    ∀ ps acc out : List Piece, splitOnceAux base furi acc ps = some out →
      stripPieces out = stripPieces acc ++ stripPieces ps := by
  intro ps
  induction ps with
  | nil =>
    intro acc out h
    simp [splitOnceAux] at h
  | cons p rest ih =>
    intro acc out h
    cases p with
    | resolved f =>
      have h2 := ih _ _ h
      rw [h2]
      simp
    | lit s =>
      rw [splitOnceAux] at h
      cases hsf : splitFirst base s with
      | none =>
        rw [hsf] at h
        have h2 := ih _ _ h
        rw [h2]
        simp
      | some pr =>
        obtain ⟨l, r⟩ := pr
        rw [hsf] at h
        injection h with h
        subst h
        have hs := splitFirst_sound base s l r hsf
        rw [stripPieces_append, mergeLast_strip, stripPieces_cons, stripPieces_cons,
          mergeHead_strip, hs]
        simp [stripPiece, hbase]

/-- One splice pass removes exactly one occurrence of base from the literal text. -/
theorem splitOnceAux_litLen (base : List Char) (furi : List Furigana) :
    ∀ ps acc out : List Piece, splitOnceAux base furi acc ps = some out →
      litLen out + base.length = litLen acc + litLen ps := by
  intro ps
  induction ps with
  | nil =>
    intro acc out h
    simp [splitOnceAux] at h
  | cons p rest ih =>
    intro acc out h
    cases p with
    | resolved f =>
      have h2 := ih _ _ h
      rw [h2]
      simp [litPieceLen]
    | lit s =>
      rw [splitOnceAux] at h
      cases hsf : splitFirst base s with
      | none =>
        rw [hsf] at h
        have h2 := ih _ _ h
        rw [h2]
        simp [litPieceLen]
        omega
      | some pr =>
        obtain ⟨l, r⟩ := pr
        rw [hsf] at h
        injection h with h
        subst h
        have hs := splitFirst_sound base s l r hsf
        have hlen : s.length = l.length + base.length + r.length := by
          rw [hs]
          simp
          omega
        rw [litLen_append, mergeLast_litLen, litLen_cons, litLen_cons, mergeHead_litLen]
        simp [litPieceLen, hlen]
        omega

/-- One splice pass only inserts a resolved piece; every previously resolved piece
survives, in order. -/
theorem splitOnceAux_resolved (base : List Char) (furi : List Furigana) :
    ∀ ps acc out : List Piece, splitOnceAux base furi acc ps = some out →
      List.Sublist (resolvedPieces acc ++ resolvedPieces ps) (resolvedPieces out) := by
  intro ps
  induction ps with
  | nil =>
    intro acc out h
    simp [splitOnceAux] at h
  | cons p rest ih =>
    intro acc out h
    cases p with
    | resolved f =>
      have h2 := ih _ _ h
      simp only [resolvedPieces_append, resolvedPieces_cons_resolved, resolvedPieces_nil] at h2 ⊢
      simpa using h2
    | lit s =>
      rw [splitOnceAux] at h
      cases hsf : splitFirst base s with
      | none =>
        rw [hsf] at h
        have h2 := ih _ _ h
        simpa using h2
      | some pr =>
        obtain ⟨l, r⟩ := pr
        rw [hsf] at h
        injection h with h
        subst h
        rw [resolvedPieces_append, mergeLast_resolved, resolvedPieces_cons_resolved,
          mergeHead_resolved, resolvedPieces_cons_lit]
        exact List.Sublist.append_left (List.sublist_cons_self _ _) _

/-- The scan-and-split loop preserves the annotation-free residue. -/
theorem insertLoop_strip (base : List Char) (furi : List Furigana)
    (hbase : rubyFlat furi = base) :
    ∀ (fuel : Nat) (ps out : List Piece), insertLoop fuel base furi ps = some out →
      stripPieces out = stripPieces ps := by
  intro fuel
  induction fuel with
  | zero =>
    intro ps out h
    simp [insertLoop] at h
  | succ n ih =>
    intro ps out h
    rw [insertLoop] at h
    cases hsa : splitOnceAux base furi [] ps with
    | none =>
      rw [hsa] at h
      injection h with h
      subst h
      rfl
    | some ps2 =>
      rw [hsa] at h
      have h1 := splitOnceAux_strip base furi hbase ps [] ps2 hsa
      have h2 := ih ps2 out h
      rw [h2, h1, stripPieces_nil, List.nil_append]

/-- The scan-and-split loop never grows the literal text. -/
theorem insertLoop_litLen_le (base : List Char) (furi : List Furigana) :
    ∀ (fuel : Nat) (ps out : List Piece), insertLoop fuel base furi ps = some out →
      litLen out ≤ litLen ps := by
  intro fuel
  induction fuel with
  | zero =>
    intro ps out h
    simp [insertLoop] at h
  | succ n ih =>
    intro ps out h
    rw [insertLoop] at h
    cases hsa : splitOnceAux base furi [] ps with
    | none =>
      rw [hsa] at h
      injection h with h
      subst h
      exact Nat.le_refl _
    | some ps2 =>
      rw [hsa] at h
      have h1 := splitOnceAux_litLen base furi ps [] ps2 hsa
      have h2 := ih ps2 out h
      simp only [litLen_nil, Nat.zero_add] at h1
      omega

/-- The scan-and-split loop preserves every already-resolved piece, in order. -/
theorem insertLoop_resolved (base : List Char) (furi : List Furigana) :
    ∀ (fuel : Nat) (ps out : List Piece), insertLoop fuel base furi ps = some out →
      List.Sublist (resolvedPieces ps) (resolvedPieces out) := by
  intro fuel
  induction fuel with
  | zero =>
    intro ps out h
    simp [insertLoop] at h
  | succ n ih =>
    intro ps out h
    rw [insertLoop] at h
    cases hsa : splitOnceAux base furi [] ps with
    | none =>
      rw [hsa] at h
      injection h with h
      subst h
      exact List.Sublist.refl _
    | some ps2 =>
      rw [hsa] at h
      have h1 := splitOnceAux_resolved base furi ps [] ps2 hsa
      have h2 := ih ps2 out h
      simp only [resolvedPieces_nil, List.nil_append] at h1
      exact h1.trans h2

/-- With a non-empty base, each splice strictly shrinks the literal text, so litLen
bounds the number of loop iterations: any fuel above it suffices. -/
theorem insertLoop_terminates (base : List Char) (furi : List Furigana)
    (hbase : base ≠ []) :
    ∀ (fuel : Nat) (ps : List Piece), litLen ps < fuel →
      (insertLoop fuel base furi ps).isSome := by
  intro fuel
  induction fuel with
  | zero =>
    intro ps h
    omega
  | succ n ih =>
    intro ps hlt
    rw [insertLoop]
    cases hsa : splitOnceAux base furi [] ps with
    | none => rfl
    | some ps2 =>
      have h1 := splitOnceAux_litLen base furi ps [] ps2 hsa
      simp only [litLen_nil, Nat.zero_add] at h1
      have hb : 0 < base.length := List.length_pos.mpr hbase
      exact ih ps2 (by omega)

/-- The per-entry loop preserves the annotation-free residue over the whole entry list,
provided each entry's base is the flattening of its segment list. -/
theorem annotateAll_strip :
    ∀ (entries : List Stripped) (fuel : Nat) (ps out : List Piece),
      (∀ e ∈ entries, rubyFlat e.furigana = e.base) →
      annotateAll fuel entries ps = some out → stripPieces out = stripPieces ps := by
  intro entries
  induction entries with
  | nil =>
    intro fuel ps out _ h
    injection h with h
    subst h
    rfl
  | cons e rest ih =>
    intro fuel ps out hb h
    rw [annotateAll] at h
    cases hil : insertLoop fuel e.base e.furigana ps with
    | none =>
      rw [hil] at h
      simp at h
    | some ps2 =>
      rw [hil] at h
      have h1 := insertLoop_strip e.base e.furigana (hb e (List.mem_cons_self e rest))
        fuel ps ps2 hil
      have h2 := ih fuel ps2 out (fun x hx => hb x (List.mem_cons_of_mem e hx)) h
      rw [h2, h1]

/-- The per-entry loop never grows the literal text. -/
theorem annotateAll_litLen_le :
    ∀ (entries : List Stripped) (fuel : Nat) (ps out : List Piece),
      annotateAll fuel entries ps = some out → litLen out ≤ litLen ps := by
  intro entries
  induction entries with
  | nil =>
    intro fuel ps out h
    injection h with h
    subst h
    exact Nat.le_refl _
  | cons e rest ih =>
    intro fuel ps out h
    rw [annotateAll] at h
    cases hil : insertLoop fuel e.base e.furigana ps with
    | none =>
      rw [hil] at h
      simp at h
    | some ps2 =>
      rw [hil] at h
      exact (ih fuel ps2 out h).trans (insertLoop_litLen_le e.base e.furigana fuel ps ps2 hil)

/-- If every base is non-empty and the fuel exceeds the initial literal length, the
whole annotation pass completes. -/
theorem annotateAll_terminates :
    ∀ (entries : List Stripped) (fuel : Nat) (ps : List Piece),
      (∀ e ∈ entries, e.base ≠ []) → litLen ps < fuel →
      (annotateAll fuel entries ps).isSome := by
  intro entries
  induction entries with
  | nil =>
    intro fuel ps _ _
    rfl
  | cons e rest ih =>
    intro fuel ps hb hlt
    rw [annotateAll]
    cases hil : insertLoop fuel e.base e.furigana ps with
    | none =>
      exfalso
      have := insertLoop_terminates e.base e.furigana (hb e (List.mem_cons_self e rest))
        fuel ps hlt
      rw [hil] at this
      simp at this
    | some ps2 =>
      have h1 := insertLoop_litLen_le e.base e.furigana fuel ps ps2 hil
      exact ih fuel ps2 (fun x hx => hb x (List.mem_cons_of_mem e hx)) (by omega)

/-- Membership is preserved by the stable sort. -/
theorem mem_sortEntries (e : Stripped) (l : List Stripped) :
    e ∈ sortEntries l ↔ e ∈ l :=
  (List.perm_insertionSort _ l).mem_iff

/-- The sorted entry list is in descending (non-increasing) order of base length. -/
theorem sortEntries_sorted (l : List Stripped) :
    List.Pairwise (fun a b => b.base.length ≤ a.base.length) (sortEntries l) := by
  haveI : IsTotal Stripped (fun a b => b.base.length ≤ a.base.length) :=
    ⟨fun a b => Nat.le_total b.base.length a.base.length⟩
  haveI : IsTrans Stripped (fun a b => b.base.length ≤ a.base.length) :=
    ⟨fun _ _ _ h1 h2 => Nat.le_trans h2 h1⟩
  exact List.sorted_insertionSort _ l

/-- Claim C1: for every sentence and every entry list, whenever the annotator's loop
completes (the source function returns), stripping all reading annotations from the
result — literal pieces keep their text, resolved pieces keep only the segment base
texts, every rt reading and its surrounding ruby markup being deleted — reproduces the
original sentence exactly; the returned string is the rendering of those pieces. -/
theorem claim1_strip_roundtrip (fuel : Nat) (sentence : List Char)
    (allFurigana : List (List Furigana)) (pieces : List Piece)
    (h : annotatePieces fuel sentence allFurigana = some pieces) :
    stripPieces pieces = sentence ∧
      applySentenceRubyTags fuel sentence allFurigana = some (renderPieces pieces) := by
  constructor
  · have hb : ∀ e ∈ sortEntries (allFurigana.map mkStripped),
        rubyFlat e.furigana = e.base := by
      intro e he
      rw [mem_sortEntries] at he
      rcases List.mem_map.mp he with ⟨arr, _, rfl⟩
      rfl
    have h2 := annotateAll_strip _ fuel _ pieces hb h
    rw [h2]
    simp [stripPiece]
  · simp [applySentenceRubyTags, h]

/-- Witness for claim C1 at a concrete run. -/
theorem claim1_strip_roundtrip_witness :
    stripPieces [Piece.lit [], Piece.resolved [Furigana.mk "a".toList (some "r".toList)],
        Piece.lit "b".toList] = "ab".toList ∧
      applySentenceRubyTags 2 "ab".toList [[Furigana.mk "a".toList (some "r".toList)]] =
        some (renderPieces [Piece.lit [],
          Piece.resolved [Furigana.mk "a".toList (some "r".toList)],
          Piece.lit "b".toList]) :=
  claim1_strip_roundtrip 2 "ab".toList [[Furigana.mk "a".toList (some "r".toList)]]
    [Piece.lit [], Piece.resolved [Furigana.mk "a".toList (some "r".toList)],
      Piece.lit "b".toList] (by decide)

/-- Claim C2, counterexample: with two entries whose distinct bases have equal length,
the processing order is not strictly descending in base length (the comparator returns
zero and the stable sort keeps the tie in input order). -/
theorem claim2_counterexample :
    ¬ List.Pairwise (fun a b => b.base.length < a.base.length)
        (sortEntries ([[Furigana.mk "a".toList (some "r".toList)],
          [Furigana.mk "b".toList (some "s".toList)]].map mkStripped)) := by
  decide

/-- Claim C2 (amended): entries are processed in descending — non-increasing, not
strictly descending — order of trimmed base length, so an entry with a strictly longer
base (in particular one whose base properly contains another entry's base) comes
strictly earlier in the processing order; and processing an entry never splits an
already-resolved span: all resolved pieces present before an insertLoop run survive it
unchanged and in order, later entries matching only in the remaining literal text. -/
theorem claim2_longest_first (allFurigana : List (List Furigana)) (i j : Nat)
    (hi : i < (sortEntries (allFurigana.map mkStripped)).length)
    (hj : j < (sortEntries (allFurigana.map mkStripped)).length)
    (hlen : ((sortEntries (allFurigana.map mkStripped)).get ⟨i, hi⟩).base.length <
      ((sortEntries (allFurigana.map mkStripped)).get ⟨j, hj⟩).base.length)
    (fuel : Nat) (base : List Char) (furi : List Furigana) (ps out : List Piece)
    (h : insertLoop fuel base furi ps = some out) :
    j < i ∧ List.Sublist (resolvedPieces ps) (resolvedPieces out) := by
  refine ⟨?_, insertLoop_resolved base furi fuel ps out h⟩
  by_contra hji
  push_neg at hji
  rcases Nat.lt_or_eq_of_le hji with hij | hij
  · have hp := sortEntries_sorted (allFurigana.map mkStripped)
    rw [List.pairwise_iff_get] at hp
    have h3 := hp ⟨i, hi⟩ ⟨j, hj⟩ (Fin.mk_lt_mk.mpr hij)
    omega
  · subst hij
    exact absurd hlen (lt_irrefl _)

/-- Witness for claim C2: the length-1 base sorts after the length-2 base, and a
concrete insertLoop run preserves resolved pieces. -/
theorem claim2_longest_first_witness :
    0 < 1 ∧ List.Sublist (resolvedPieces [Piece.lit "xa".toList])
      (resolvedPieces [Piece.lit "x".toList,
        Piece.resolved [Furigana.mk "a".toList (some "r".toList)], Piece.lit []]) :=
  claim2_longest_first
    [[Furigana.mk "a".toList (some "r".toList)],
      [Furigana.mk "a".toList (some "x".toList), Furigana.mk "b".toList (some "y".toList)]]
    1 0 (by decide) (by decide) (by decide) 2 "a".toList
    [Furigana.mk "a".toList (some "r".toList)] [Piece.lit "xa".toList]
    [Piece.lit "x".toList, Piece.resolved [Furigana.mk "a".toList (some "r".toList)],
      Piece.lit []] (by decide)

/-- Claim C5: when every entry's trimmed base is non-empty, the repeated scan-and-split
loop terminates — each split removes one occurrence of the base from the literal text,
strictly decreasing the total unresolved literal length, so fuel one above the sentence
length already completes the whole pass. -/
theorem claim5_termination (sentence : List Char) (allFurigana : List (List Furigana))
    (hbase : ∀ arr ∈ allFurigana, rubyFlat (stripEntry arr) ≠ []) :
    (annotatePieces (sentence.length + 1) sentence allFurigana).isSome := by
  apply annotateAll_terminates
  · intro e he
    rw [mem_sortEntries] at he
    rcases List.mem_map.mp he with ⟨arr, harr, rfl⟩
    exact hbase arr harr
  · simp [litPieceLen]

/-- Witness for claim C5 at a concrete entry list. -/
theorem claim5_termination_witness :
    (annotatePieces ("ab".toList.length + 1) "ab".toList
      [[Furigana.mk "a".toList (some "r".toList)]]).isSome :=
  claim5_termination "ab".toList [[Furigana.mk "a".toList (some "r".toList)]] (by decide)

/-- Claim C6: annotating with the empty entry list returns the sentence unchanged. -/
theorem claim6_empty_entries (fuel : Nat) (s : List Char) :
    applySentenceRubyTags fuel s [] = some s := by
  simp [applySentenceRubyTags, annotatePieces, sortEntries, annotateAll, renderPieces,
    renderPiece]

/-- Claim C7, counterexample: for a single entry whose base is the entire sentence, the
resulting piece sequence is not the single fully-annotated piece, and it does contain
empty literal fragments — the splice pushes an empty left and right literal because
there is no adjacent literal piece to merge them into. -/
theorem claim7_counterexample :
    (annotatePieces 2 "a".toList [[Furigana.mk "a".toList (some "x".toList)]]).getD [] ≠
        [Piece.resolved [Furigana.mk "a".toList (some "x".toList)]] ∧
      Piece.lit [] ∈
        (annotatePieces 2 "a".toList [[Furigana.mk "a".toList (some "x".toList)]]).getD [] := by
  decide

/-- Claim C7 (amended): for a single entry whose trimmed base equals the whole
non-empty sentence, the annotator produces the piece sequence
[empty literal, resolved entry, empty literal]: the rendered output is the annotated
run alone with no residual literal text, but the split does create empty literal
fragments at the boundaries (left/right remainders are merged into an adjacent literal
piece only when one exists; otherwise a possibly-empty literal is pushed). -/
theorem claim7_whole_sentence (fuel : Nat) (s : List Char) (arr : List Furigana)
    (hbase : rubyFlat (stripEntry arr) = s) (hs : s ≠ []) (hfuel : 2 ≤ fuel) :
    annotatePieces fuel s [arr] =
        some [Piece.lit [], Piece.resolved (stripEntry arr), Piece.lit []] ∧
      renderPieces [Piece.lit [], Piece.resolved (stripEntry arr), Piece.lit []] =
        renderPiece (Piece.resolved (stripEntry arr)) := by
  obtain ⟨k, rfl⟩ : ∃ k, fuel = k + 2 := ⟨fuel - 2, by omega⟩
  constructor
  · have h1 : splitFirst s s = some ([], []) := splitFirst_self s
    have h2 : splitFirst s [] = none := splitFirst_nil_of_ne s hs
    simp [annotatePieces, sortEntries, annotateAll, mkStripped, hbase, insertLoop,
      splitOnceAux, h1, h2, mergeLast, mergeHead]
  · simp [renderPieces, renderPiece]

/-- Witness for claim C7 (amended) at a concrete entry. -/
theorem claim7_whole_sentence_witness :
    annotatePieces 2 "ab".toList [[Furigana.mk "ab".toList (some "r".toList)]] =
        some [Piece.lit [],
          Piece.resolved (stripEntry [Furigana.mk "ab".toList (some "r".toList)]),
          Piece.lit []] ∧
      renderPieces [Piece.lit [],
          Piece.resolved (stripEntry [Furigana.mk "ab".toList (some "r".toList)]),
          Piece.lit []] =
        renderPiece (Piece.resolved (stripEntry [Furigana.mk "ab".toList (some "r".toList)])) :=
  claim7_whole_sentence 2 "ab".toList [Furigana.mk "ab".toList (some "r".toList)]
    (by decide) (by decide) (by decide)

/-- Claim C3: the parser is total over every loaded document (cheerio.load never
raises, and every extraction here is a total function of the tree), and on a document
with no recognizable analysis markup — no .ds-text .ds-word element and no non-hidden
.gloss-row — it returns the SentenceAnalysis whose original is the submitted text,
whose romanization is unset and whose words list is empty. -/
theorem claim3_degraded (root : Dom) (orig : List Char)
    (h1 : findIn [Sel.cls "ds-text".toList, Sel.cls "ds-word".toList] root = [])
    (h2 : (findIn [Sel.cls "gloss-row".toList] root).filter
      (fun d => !hasClass "hidden".toList d) = []) :
    parseIchiMoeResponse root orig =
      { original := orig, romanization := none, words := [] } := by
  simp only [parseIchiMoeResponse, h1, h2]
  rfl

/-- Witness for claim C3 on an empty document. -/
theorem claim3_degraded_witness :
    parseIchiMoeResponse (Dom.elem "html".toList [] [] []) "abc".toList =
      { original := "abc".toList, romanization := none, words := [] } :=
  claim3_degraded (Dom.elem "html".toList [] [] []) "abc".toList rfl rfl

/-- Claim C8: a set (truthy) reading whose word-reading key is absent from the
dictionary index yields the bracket fallback WORD 【READING】; an unset reading
returns the word unchanged with no lookup; both paths are pure computations of the
embedding, raising nothing and mutating nothing. -/
theorem claim8_fallback (word r : List Char) (m : List Char → Option (List Furigana))
    (hr : r ≠ []) (hm : m (word ++ "-".toList ++ r) = none) :
    formatWordWithRuby word (some r) m = word ++ " 【".toList ++ r ++ "】".toList ∧
      formatWordWithRuby word none m = word := by
  constructor
  · simp only [formatWordWithRuby, hm]
    rw [if_neg (by simpa using hr)]
  · rfl

/-- Witness for claim C8 on the empty dictionary index. -/
theorem claim8_fallback_witness :
    formatWordWithRuby "日本語".toList (some "にほんご".toList) emptyFuriMap =
        "日本語".toList ++ " 【".toList ++ "にほんご".toList ++ "】".toList ∧
      formatWordWithRuby "日本語".toList none emptyFuriMap = "日本語".toList :=
  claim8_fallback "日本語".toList "にほんご".toList emptyFuriMap (by decide) rfl

/-- Claim C10: on an empty words list the rendered block is exactly the callout header
line carrying the original text, the single placeholder explanation line, and the
trailing blank line — no list items, no empty list structure, and the empty case is an
ordinary return value of the renderer, not an error path. -/
theorem claim10_placeholder (si : SentenceInfo)
    (m : List Char → Option (List Furigana)) (h : si.words = []) :
    buildAnalysisText si m =
      "\n".toList ++ "> [!IchiMoe]- ".toList ++ si.original ++ "\n".toList ++
        ("> *No word definitions found. The text might be too complex " ++
          "or ichi.moe might be having issues.*\n").toList ++ "\n".toList := by
  rw [buildAnalysisText, h]
  rfl

/-- Witness for claim C10 on a concrete empty analysis. -/
theorem claim10_placeholder_witness :
    buildAnalysisText { original := "x".toList, romanization := none, words := [] }
        emptyFuriMap =
      "\n".toList ++ "> [!IchiMoe]- ".toList ++ "x".toList ++ "\n".toList ++
        ("> *No word definitions found. The text might be too complex " ++
          "or ichi.moe might be having issues.*\n").toList ++ "\n".toList :=
  claim10_placeholder { original := "x".toList, romanization := none, words := [] }
    emptyFuriMap rfl

/-- dropWhile skips over a prefix whose elements all satisfy p. -/
theorem dropWhile_append_of_all {α : Type} (p : α → Bool) (l t : List α)
    (h : ∀ c ∈ l, p c = true) : List.dropWhile p (l ++ t) = List.dropWhile p t := by
  induction l with
  | nil => rfl
  | cons c cs ih =>
    rw [List.cons_append, List.dropWhile_cons, if_pos (h c (List.mem_cons_self c cs))]
    exact ih (fun x hx => h x (List.mem_cons_of_mem c hx))

/-- takeWhile keeps a list whose elements all satisfy p. -/
theorem takeWhile_of_all {α : Type} (p : α → Bool) (l : List α)
    (h : ∀ c ∈ l, p c = true) : List.takeWhile p l = l := by
  induction l with
  | nil => rfl
  | cons c cs ih =>
    rw [List.takeWhile_cons, if_pos (h c (List.mem_cons_self c cs))]
    rw [ih (fun x hx => h x (List.mem_cons_of_mem c hx))]

/-- dropWhile drops a whole list whose elements all satisfy p. -/
theorem dropWhile_of_all {α : Type} (p : α → Bool) (l : List α)
    (h : ∀ c ∈ l, p c = true) : List.dropWhile p l = [] := by
  have h2 := dropWhile_append_of_all p l [] h
  simpa using h2

/-- takeWhile stops exactly at the first failing element. -/
theorem takeWhile_append_stop {α : Type} (p : α → Bool) (l : List α) (x : α)
    (t : List α) (h : ∀ c ∈ l, p c = true) (hx : p x = false) :
    List.takeWhile p (l ++ x :: t) = l := by
  induction l with
  | nil => simp [List.takeWhile_cons, hx]
  | cons c cs ih =>
    rw [List.cons_append, List.takeWhile_cons, if_pos (h c (List.mem_cons_self c cs))]
    rw [ih (fun y hy => h y (List.mem_cons_of_mem c hy))]

/-- dropWhile drops exactly up to the first failing element. -/
theorem dropWhile_append_stop {α : Type} (p : α → Bool) (l : List α) (x : α)
    (t : List α) (h : ∀ c ∈ l, p c = true) (hx : p x = false) :
    List.dropWhile p (l ++ x :: t) = x :: t := by
  rw [dropWhile_append_of_all p l (x :: t) h, List.dropWhile_cons, if_neg (by simp [hx])]

/-- A non-empty list fixed by dropWhile has a head not satisfying p. -/
theorem head_false_of_dropWhile_self {α : Type} (p : α → Bool) (c : α) (t : List α)
    (h : List.dropWhile p (c :: t) = c :: t) : p c = false := by
  by_cases hp : p c
  · exfalso
    rw [List.dropWhile_cons, if_pos hp] at h
    have h1 : (List.dropWhile p t).length ≤ t.length :=
      (List.dropWhile_suffix (l := t) p).length_le
    have h2 := congrArg List.length h
    simp at h2
    omega
  · simpa using hp

/-- dropWhile keeps a list whose head fails p, with anything appended after it. -/
theorem dropWhile_self_append {α : Type} (p : α → Bool) (w t : List α)
    (hw : w ≠ []) (h1 : w.dropWhile p = w) : List.dropWhile p (w ++ t) = w ++ t := by
  cases w with
  | nil => exact absurd rfl hw
  | cons c cs =>
    have hc := head_false_of_dropWhile_self p c cs h1
    rw [List.cons_append, List.dropWhile_cons, if_neg (by simp [hc])]

/-- A string already trimmed on both sides is fixed by trimStr. -/
theorem trimStr_eq_self (w : List Char) (h1 : w.dropWhile isSpaceChar = w)
    (h2 : w.reverse.dropWhile isSpaceChar = w.reverse) : trimStr w = w := by
  rw [trimStr, h1, h2, List.reverse_reverse]

/-- trimStr deletes a trailing all-whitespace run after a both-sides-trimmed string. -/
theorem trimStr_append_spaces (w sp : List Char) (hw : w ≠ [])
    (h1 : w.dropWhile isSpaceChar = w)
    (h2 : w.reverse.dropWhile isSpaceChar = w.reverse)
    (hsp : ∀ c ∈ sp, isSpaceChar c = true) : trimStr (w ++ sp) = w := by
  rw [trimStr, dropWhile_self_append isSpaceChar w sp hw h1, List.reverse_append,
    dropWhile_append_of_all isSpaceChar sp.reverse w.reverse
      (fun c hc => hsp c (List.mem_reverse.mp hc)), h2, List.reverse_reverse]

/-- An ordinal prefix (digits, dot, whitespace) is removed by stripOrdinal, leaving
the dropWhile of the remainder. -/
theorem stripOrdinal_strips (ds t : List Char) (hds : ds ≠ [])
    (hds2 : ∀ c ∈ ds, isDigitChar c = true) :
    stripOrdinal (ds ++ ('.' :: t)) = t.dropWhile isSpaceChar := by
  obtain ⟨d0, ds', rfl⟩ := List.exists_cons_of_ne_nil hds
  have e1 : ((d0 :: ds') ++ ('.' :: t)).takeWhile isDigitChar = d0 :: ds' :=
    takeWhile_append_stop _ _ '.' _ hds2 (by decide)
  have e2 : ((d0 :: ds') ++ ('.' :: t)).dropWhile isDigitChar = '.' :: t :=
    dropWhile_append_stop _ _ '.' _ hds2 (by decide)
  rw [stripOrdinal, e1, e2]
  rfl

/-- A string with no leading digit run is fixed by stripOrdinal. -/
theorem stripOrdinal_fix (s : List Char) (h : s.takeWhile isDigitChar = []) :
    stripOrdinal s = s := by
  cases s with
  | nil => rfl
  | cons c cs => rw [stripOrdinal, h]

/-- The label regex on WORD 【READING】 labels: group 1 is the text before the
bracket, group 2 the bracket contents. -/
theorem matchWordReading_bracketed (u rd : List Char) (hu : u ≠ [])
    (hq : ∀ c ∈ u, c ≠ '【') (hrd : rd ≠ []) (hrd2 : ∀ c ∈ rd, c ≠ '】') :
    matchWordReading (u ++ ('【' :: (rd ++ ['】']))) = some (u, some rd) := by
  have e5 : (u ++ ('【' :: (rd ++ ['】']))).takeWhile (fun c => c != '【') = u :=
    takeWhile_append_stop _ u '【' _ (fun c hc => by simpa using hq c hc) (by decide)
  have e6 : (u ++ ('【' :: (rd ++ ['】']))).dropWhile (fun c => c != '【') =
      '【' :: (rd ++ ['】']) :=
    dropWhile_append_stop _ u '【' _ (fun c hc => by simpa using hq c hc) (by decide)
  have e7 : (rd ++ ['】']).takeWhile (fun c => c != '】') = rd :=
    takeWhile_append_stop _ rd '】' [] (fun c hc => by simpa using hrd2 c hc) (by decide)
  have e8 : (rd ++ ['】']).dropWhile (fun c => c != '】') = '】' :: [] :=
    dropWhile_append_stop _ rd '】' [] (fun c hc => by simpa using hrd2 c hc) (by decide)
  have hu2 : u.isEmpty = false := by
    cases u with
    | nil => exact absurd rfl hu
    | cons a b => rfl
  have hrd3 : rd.isEmpty = false := by
    cases rd with
    | nil => exact absurd rfl hrd
    | cons a b => rfl
  simp only [matchWordReading, e5, e6, e7, e8, hu2, hrd3]
  rfl

/-- The label regex on a bracketless label: the whole text is group 1, group 2 absent. -/
theorem matchWordReading_plain (u : List Char) (hu : u ≠ [])
    (hq : ∀ c ∈ u, c ≠ '【') : matchWordReading u = some (u, none) := by
  have e14 : u.takeWhile (fun c => c != '【') = u :=
    takeWhile_of_all _ u (fun c hc => by simpa using hq c hc)
  have e15 : u.dropWhile (fun c => c != '【') = [] :=
    dropWhile_of_all _ u (fun c hc => by simpa using hq c hc)
  have hu2 : u.isEmpty = false := by
    cases u with
    | nil => exact absurd rfl hu
    | cons a b => rfl
  simp only [matchWordReading, e14, e15, hu2]
  rfl

/-- parseSingleLabel through a successful regex match. -/
theorem parseSingleLabel_of_match (dtText u : List Char) (r : Option (List Char))
    (h1 : matchWordReading (stripOrdinal dtText) = some (u, r)) :
    parseSingleLabel dtText = (trimStr u, r.map trimStr) := by
  unfold parseSingleLabel
  split
  next w2 r2 heq =>
    have h2 := h1.symm.trans heq
    injection h2 with h2
    cases h2
    rfl
  next heq =>
    have h2 := h1.symm.trans heq
    simp at h2

/-- Claim C4: a well-formed single-reading label — an ordinal prefix DIGITS. SPACES
(optional: present in the first and third conjuncts, absent in the second), a
both-sides-trimmed bracketless word, optional whitespace, then an optional
【READING】 part — parses to the word and to the bracket contents with surrounding
whitespace removed; the ordinal prefix appears in neither; a label with no bracket
part yields that word with the reading unset. -/
theorem claim4_label_parse (ds sp sp2 w rd : List Char)
    (hds : ds ≠ []) (hds2 : ∀ c ∈ ds, isDigitChar c = true)
    (hsp : ∀ c ∈ sp, isSpaceChar c = true) (hsp2 : ∀ c ∈ sp2, isSpaceChar c = true)
    (hw : w ≠ []) (hw1 : w.dropWhile isSpaceChar = w)
    (hw2 : w.reverse.dropWhile isSpaceChar = w.reverse)
    (hw3 : ∀ c ∈ w, c ≠ '【') (hwd : w.takeWhile isDigitChar = [])
    (hrd : rd ≠ []) (hrd2 : ∀ c ∈ rd, c ≠ '】') :
    parseSingleLabel (ds ++ ('.' :: (sp ++ (w ++ (sp2 ++ ('【' :: (rd ++ ['】'])))))))
        = (w, some (trimStr rd)) ∧
      parseSingleLabel (w ++ (sp2 ++ ('【' :: (rd ++ ['】'])))) = (w, some (trimStr rd)) ∧
      parseSingleLabel (ds ++ ('.' :: (sp ++ w))) = (w, none) := by
  have hu : w ++ sp2 ≠ [] := by
    intro hc
    exact hw (List.append_eq_nil.mp hc).1
  have hq_u : ∀ c ∈ w ++ sp2, c ≠ '【' := by
    intro c hc
    rcases List.mem_append.mp hc with h | h
    · exact hw3 c h
    · intro he
      have h2 := hsp2 c h
      rw [he] at h2
      exact absurd h2 (by decide)
  have hbr := matchWordReading_bracketed (w ++ sp2) rd hu hq_u hrd hrd2
  have htr : trimStr (w ++ sp2) = w := trimStr_append_spaces w sp2 hw hw1 hw2 hsp2
  have hassoc : w ++ (sp2 ++ ('【' :: (rd ++ ['】']))) =
      (w ++ sp2) ++ ('【' :: (rd ++ ['】'])) := (List.append_assoc w sp2 _).symm
  refine ⟨?_, ?_, ?_⟩
  · have e3 := stripOrdinal_strips ds
      (sp ++ (w ++ (sp2 ++ ('【' :: (rd ++ ['】']))))) hds hds2
    have e4 : (sp ++ (w ++ (sp2 ++ ('【' :: (rd ++ ['】']))))).dropWhile isSpaceChar =
        w ++ (sp2 ++ ('【' :: (rd ++ ['】']))) := by
      rw [dropWhile_append_of_all isSpaceChar sp _ hsp]
      exact dropWhile_self_append isSpaceChar w _ hw hw1
    rw [e4] at e3
    have h1 : matchWordReading (stripOrdinal (ds ++ ('.' :: (sp ++ (w ++ (sp2 ++
        ('【' :: (rd ++ ['】'])))))))) = some (w ++ sp2, some rd) := by
      rw [e3, hassoc]
      exact hbr
    rw [parseSingleLabel_of_match _ _ _ h1, htr]
    rfl
  · obtain ⟨c0, w', hw0⟩ := List.exists_cons_of_ne_nil hw
    have hc0 : isDigitChar c0 = false := by
      by_cases h : isDigitChar c0
      · rw [hw0, List.takeWhile_cons, if_pos h] at hwd
        exact absurd hwd (by simp)
      · simpa using h
    have e10 : (w ++ (sp2 ++ ('【' :: (rd ++ ['】'])))).takeWhile isDigitChar = [] := by
      rw [hw0, List.cons_append, List.takeWhile_cons, if_neg (by simp [hc0])]
    have e11 := stripOrdinal_fix _ e10
    have h1 : matchWordReading (stripOrdinal (w ++ (sp2 ++ ('【' :: (rd ++ ['】']))))) =
        some (w ++ sp2, some rd) := by
      rw [e11, hassoc]
      exact hbr
    rw [parseSingleLabel_of_match _ _ _ h1, htr]
    rfl
  · have e12 := stripOrdinal_strips ds (sp ++ w) hds hds2
    have e13 : (sp ++ w).dropWhile isSpaceChar = w := by
      rw [dropWhile_append_of_all isSpaceChar sp w hsp, hw1]
    rw [e13] at e12
    have hpl := matchWordReading_plain w hw hw3
    have h1 : matchWordReading (stripOrdinal (ds ++ ('.' :: (sp ++ w)))) =
        some (w, none) := by
      rw [e12]
      exact hpl
    rw [parseSingleLabel_of_match _ _ _ h1, trimStr_eq_self w hw1 hw2]
    rfl

/-- Witness for claim C4 on ordinal-prefixed bracket labels. -/
theorem claim4_label_parse_witness :
    parseSingleLabel ("1".toList ++ ('.' :: (" ".toList ++ ("中".toList ++
          (" ".toList ++ ('【' :: (" ちゅう ".toList ++ ['】'])))))))
        = ("中".toList, some (trimStr " ちゅう ".toList)) ∧
      parseSingleLabel ("中".toList ++ (" ".toList ++
          ('【' :: (" ちゅう ".toList ++ ['】'])))) =
        ("中".toList, some (trimStr " ちゅう ".toList)) ∧
      parseSingleLabel ("1".toList ++ ('.' :: (" ".toList ++ "中".toList))) =
        ("中".toList, none) :=
  claim4_label_parse "1".toList " ".toList " ".toList "中".toList " ちゅう ".toList
    (by decide) (by decide) (by decide) (by decide) (by decide) (by decide) (by decide)
    (by decide) (by decide) (by decide) (by decide)


/-- An alternative accepted by altOfDt always carries at least one definition. -/
theorem altOfDt_some (dtEl : Dom) (sibs : List Dom) (a : AltEntry)
    (h : altOfDt dtEl sibs = some a) : a.definitions ≠ [] := by
  simp only [altOfDt] at h
  split at h
  · exact absurd h (by simp)
  · next hne =>
      injection h with h
      cases h
      simpa using hne

/-- The multi-alternative word the source chooses is never empty: it falls back to the
romanized token and then to the string unknown. -/
theorem multiWord_ne_nil (wm rom : List Char) :
    (if wm.isEmpty then (if rom.isEmpty then "unknown".toList else rom) else wm) ≠ [] := by
  split_ifs with h1 h2
  · decide
  · simpa using h2
  · simpa using h1

/-- A record accepted by the multi-alternative push satisfies the alternatives shape. -/
theorem mkMultiWordInfo_invariant (word : List Char) (alts : List AltEntry)
    (wi : WordInfo) (hw : word ≠ []) (halts : ∀ a ∈ alts, a.definitions ≠ [])
    (h : mkMultiWordInfo word alts = some wi) :
    wi.word ≠ [] ∧ (∃ as2, wi.alternatives = some as2 ∧ wi.reading = none ∧
      wi.definitions = none ∧ as2 ≠ [] ∧ ∀ a ∈ as2, a.definitions ≠ []) := by
  simp only [mkMultiWordInfo] at h
  split at h
  · exact absurd h (by simp)
  · next hne =>
      injection h with h
      cases h
      exact ⟨hw, alts, rfl, rfl, rfl, by simpa using hne, halts⟩

/-- A record accepted by the single-reading push satisfies the definitions shape. -/
theorem mkSingleWordInfo_invariant (word : List Char) (reading : Option (List Char))
    (defs : List (List Char)) (wi : WordInfo)
    (h : mkSingleWordInfo word reading defs = some wi) :
    wi.word ≠ [] ∧ wi.alternatives = none ∧
      ∃ ds2, wi.definitions = some ds2 ∧ ds2 ≠ [] := by
  simp only [mkSingleWordInfo] at h
  split at h
  · exact absurd h (by simp)
  · next hw =>
      split at h
      · exact absurd h (by simp)
      · next hd =>
          injection h with h
          cases h
          exact ⟨by simpa using hw, rfl, defs, rfl, by simpa using hd⟩

/-- Every WordInfo produced for one gloss block satisfies the data-model invariant. -/
theorem processGloss_invariant (g : Dom) (wi : WordInfo)
    (h : processGloss g = some wi) :
    wi.word ≠ [] ∧
      ((∃ alts, wi.alternatives = some alts ∧ wi.reading = none ∧
          wi.definitions = none ∧ alts ≠ [] ∧ ∀ a ∈ alts, a.definitions ≠ []) ∨
        (wi.alternatives = none ∧ ∃ defs, wi.definitions = some defs ∧ defs ≠ [])) := by
  simp only [processGloss] at h
  by_cases hlen : 1 < (findWithSibs [Sel.cls "gloss-content".toList,
      Sel.cls "alternatives".toList, Sel.tag "dt".toList] g).length
  · rw [if_pos hlen] at h
    have h2 := mkMultiWordInfo_invariant _ _ wi (multiWord_ne_nil _ _)
      (fun a ha => by
        rcases List.mem_filterMap.mp ha with ⟨p, _, hp⟩
        exact altOfDt_some p.1 p.2 a hp) h
    exact ⟨h2.1, Or.inl h2.2⟩
  · rw [if_neg hlen] at h
    have h2 := mkSingleWordInfo_invariant _ _ _ wi h
    exact ⟨h2.1, Or.inr ⟨h2.2.1, h2.2.2⟩⟩

/-- Claim C9: every WordAnalysis the parser appends to the words list satisfies the
data-model invariant: non-empty word; exactly one of the two shapes populated
(alternatives with unset reading/definitions, or definitions with unset alternatives);
definitions non-empty when present; alternatives non-empty with at least one
definition each — blocks and alternatives yielding zero definitions are dropped and
never appear. -/
theorem claim9_invariant (root : Dom) (orig : List Char) (wi : WordInfo)
    (hmem : wi ∈ (parseIchiMoeResponse root orig).words) :
    wi.word ≠ [] ∧
      ((∃ alts, wi.alternatives = some alts ∧ wi.reading = none ∧
          wi.definitions = none ∧ alts ≠ [] ∧ ∀ a ∈ alts, a.definitions ≠ []) ∨
        (wi.alternatives = none ∧ ∃ defs, wi.definitions = some defs ∧ defs ≠ [])) := by
  have hg : ∃ g, processGloss g = some wi := by
    simp only [parseIchiMoeResponse] at hmem
    split at hmem
    · simp at hmem
    · rcases List.mem_filterMap.mp hmem with ⟨g, _, hpg⟩
      exact ⟨g, hpg⟩
  obtain ⟨g, hpg⟩ := hg
  exact processGloss_invariant g wi hpg

/-- Witness for claim C9 on the concrete document. -/
theorem claim9_invariant_witness :
    witWord.word ≠ [] ∧
      ((∃ alts, witWord.alternatives = some alts ∧ witWord.reading = none ∧
          witWord.definitions = none ∧ alts ≠ [] ∧ ∀ a ∈ alts, a.definitions ≠ []) ∨
        (witWord.alternatives = none ∧
          ∃ defs, witWord.definitions = some defs ∧ defs ≠ [])) :=
  claim9_invariant witRoot "x".toList witWord (by decide)
